import Mathlib

/-!
# Verification of the Eventures map-display data layer

A shallow embedding of the non-GUI logic of `src/Eventures/src/Map_display.cpp`:

* `aggregate` — the `std::map<std::pair<std::string, std::string>, int>`
  occurrence count built in `Map_display::createGraphics` (lines 79-83),
  embedded as a strictly sorted association list keyed by the raw
  (lat-string, lng-string) pair;
* `createGraphics` — the aggregation-and-emission pass (lines 72-128),
  including the early return on an empty map, the `activePoints` rebuild,
  and the `std::stod` parse of each key (which throws on malformed input,
  modelled by the `completed` flag);
* `searchHandler` — the search entry point (lines 163-185), including the
  `results` reset condition and the unconditional `activePoints[0]` focus;
* `switchViews` — the cyclic marker navigation (lines 199-212);
* `resolveClick` — the click-to-point lookup done by the identify callback
  in `connectSignals` (line 230), an unchecked `activePoints[id]` access;
* `checkPage` — the neighbouring-page probe (lines 237-256).

C++ `std::string` values are embedded as `List Char` (byte-wise
lexicographic comparison; all coordinate data is ASCII, where Lean's
`Char.toNat` ordering coincides with byte order).  C++ `int` values are
embedded as `Int`; every division/modulus in the source is applied to
non-negative values, where C++ truncated division agrees with Lean's `Int`
division.  Vector accesses `v[i]`, which C++ leaves undefined out of range,
are embedded as `List.get?`, with `none` marking an access that has no
defined value.
-/

/-- A C++ `std::string` value, as a list of its characters. -/
abbrev Str := List Char

/-- The aggregation key: the exact `(lat, lng)` pair of raw coordinate
strings, as used by the `std::map` in `createGraphics`. -/
abbrev Key := Str × Str

/-- A raw event record, reduced to the only two fields the core reads:
`eventarr[itr]["lat"]` and `eventarr[itr]["lng"]` (a missing field reads as
the empty string under `std::map::operator[]`). -/
abbrev Record := Key

/-- Convenience constructor for records from string literals. -/
def record (lat lng : String) : Record := (lat.toList, lng.toList)

/-- `std::string::operator<`: byte-wise lexicographic comparison. -/
def strLt : Str → Str → Bool
  | [], [] => false
  | [], _ :: _ => true
  | _ :: _, [] => false
  | a :: as, b :: bs =>
    if a.toNat < b.toNat then true
    else if b.toNat < a.toNat then false
    else strLt as bs

/-- `std::pair::operator<`: lexicographic on the components, exactly as the
C++ standard defines it. -/
def keyLtb (a b : Key) : Bool :=
  strLt a.1 b.1 || (!strLt b.1 a.1 && strLt a.2 b.2)

/-- The strict order on keys used by the `std::map` in `createGraphics`. -/
def keyLt (a b : Key) : Prop := keyLtb a b = true

instance (a b : Key) : Decidable (keyLt a b) := by
  unfold keyLt; infer_instance

theorem strLt_irrefl : ∀ s : Str, strLt s s = false
  | [] => rfl
  | c :: cs => by simp [strLt, strLt_irrefl cs]

theorem strLt_trans : ∀ (a b c : Str),
    strLt a b = true → strLt b c = true → strLt a c = true := by
  intro a
  induction a with
  | nil =>
    intro b c h1 h2
    cases b with
    | nil => simp [strLt] at h1
    | cons bh bt =>
      cases c with
      | nil => simp [strLt] at h2
      | cons ch ct => simp [strLt]
  | cons ah arest ih =>
    intro b c h1 h2
    cases b with
    | nil => simp [strLt] at h1
    | cons bh bt =>
      cases c with
      | nil => simp [strLt] at h2
      | cons ch ct =>
        simp only [strLt] at h1 h2 ⊢
        split_ifs at h1 h2 ⊢ with hab hba hbc hcb hac hca <;>
          first
            | rfl
            | omega
            | exact ih bt ct h1 h2

theorem strLt_conn : ∀ (a b : Str),
    strLt a b = false → strLt b a = false → a = b := by
  intro a
  induction a with
  | nil =>
    intro b h1 _
    cases b with
    | nil => rfl
    | cons bh bt => simp [strLt] at h1
  | cons ah arest ih =>
    intro b h1 h2
    cases b with
    | nil => simp [strLt] at h2
    | cons bh bt =>
      simp only [strLt] at h1 h2
      rcases Nat.lt_trichotomy ah.toNat bh.toNat with hab | hab | hab
      · rw [if_pos hab] at h1; exact absurd h1 (by simp)
      · have hba : ¬ bh.toNat < ah.toNat := by omega
        rw [if_neg (by omega), if_neg hba] at h1
        rw [if_neg hba, if_neg (by omega)] at h2
        have hv : ah.val = bh.val := UInt32.toNat.inj hab
        have he : ah = bh := Char.eq_of_val_eq hv
        rw [he, ih bt h1 h2]
      · rw [if_pos hab] at h2; exact absurd h2 (by simp)

theorem strLt_asymm (a b : Str) (h : strLt a b = true) : strLt b a = false := by
  by_contra hc
  have hba : strLt b a = true := by
    cases hx : strLt b a with
    | false => exact absurd hx hc
    | true => rfl
  have := strLt_trans a b a h hba
  rw [strLt_irrefl] at this
  exact Bool.noConfusion this

theorem keyLt_irrefl (a : Key) : ¬ keyLt a a := by
  unfold keyLt keyLtb
  simp [strLt_irrefl]

theorem keyLt_of_fst {a b : Key} (h : strLt a.1 b.1 = true) : keyLt a b := by
  unfold keyLt keyLtb
  simp [h]

theorem keyLt_of_snd {a b : Key} (h1 : a.1 = b.1) (h2 : strLt a.2 b.2 = true) :
    keyLt a b := by
  unfold keyLt keyLtb
  rw [h1]
  simp [strLt_irrefl, h2]

theorem keyLt_cases {a b : Key} (h : keyLt a b) :
    strLt a.1 b.1 = true ∨ (a.1 = b.1 ∧ strLt a.2 b.2 = true) := by
  unfold keyLt keyLtb at h
  simp only [Bool.or_eq_true, Bool.and_eq_true, Bool.not_eq_true'] at h
  rcases h with h | ⟨hba, hsnd⟩
  · exact Or.inl h
  · cases hx : strLt a.1 b.1 with
    | true => exact Or.inl rfl
    | false => exact Or.inr ⟨strLt_conn a.1 b.1 hx hba, hsnd⟩

theorem keyLt_trans {a b c : Key} (h1 : keyLt a b) (h2 : keyLt b c) : keyLt a c := by
  rcases keyLt_cases h1 with h1 | ⟨h1e, h1s⟩ <;>
    rcases keyLt_cases h2 with h2 | ⟨h2e, h2s⟩
  · exact keyLt_of_fst (strLt_trans _ _ _ h1 h2)
  · exact keyLt_of_fst (h2e ▸ h1)
  · exact keyLt_of_fst (h1e ▸ h2)
  · exact keyLt_of_snd (h1e.trans h2e) (strLt_trans _ _ _ h1s h2s)

theorem keyLt_conn {a b : Key} (h : a ≠ b) : keyLt a b ∨ keyLt b a := by
  cases h1 : strLt a.1 b.1 with
  | true => exact Or.inl (keyLt_of_fst h1)
  | false =>
    cases h2 : strLt b.1 a.1 with
    | true => exact Or.inr (keyLt_of_fst h2)
    | false =>
      have he : a.1 = b.1 := strLt_conn a.1 b.1 h1 h2
      cases h3 : strLt a.2 b.2 with
      | true => exact Or.inl (keyLt_of_snd he h3)
      | false =>
        cases h4 : strLt b.2 a.2 with
        | true => exact Or.inr (keyLt_of_snd he.symm h4)
        | false =>
          exact absurd (Prod.ext he (strLt_conn a.2 b.2 h3 h4)) h

/-! ## The aggregation map

`createGraphics` builds `std::map<std::pair<std::string, std::string>, int>
points` and runs `points[make_pair(lat, lng)] += 1` for each record
(lines 79-83).  A `std::map` is a strictly sorted key-value collection;
`operator[]` default-constructs a `0` entry for an absent key, so the loop
is insert-or-increment.  We embed the map as an association list strictly
sorted by `keyLt`. -/

/-- Insert-or-increment of one record key into the sorted association list:
the effect of `points[key] += 1` on the `std::map` contents. -/
def bump (k : Key) : List (Key × Nat) → List (Key × Nat)
  | [] => [(k, 1)]
  | (k₀, c) :: rest =>
    if keyLtb k k₀ then (k, 1) :: (k₀, c) :: rest
    else if k = k₀ then (k₀, c + 1) :: rest
    else (k₀, c) :: bump k rest

/-- The contents of the `points` map after the counting loop of
`createGraphics`, in the map's ascending key order. -/
def aggregate (rs : List Record) : List (Key × Nat) :=
  rs.foldl (fun m r => bump r m) []

/-- Total count stored for key `k` in an association list (on the sorted
lists produced by `aggregate`, the single entry for `k`, or 0). -/
def tally (k : Key) : List (Key × Nat) → Nat
  | [] => 0
  | (k₀, c) :: rest => if k = k₀ then c + tally k rest else tally k rest

/-- Number of records in `rs` whose raw (lat, lng) strings are exactly `k`. -/
def cnt (k : Key) (rs : List Record) : Nat :=
  rs.countP (fun r => decide (r = k))

/-- Sum of the occurrence counters of an association list. -/
def occSum : List (Key × Nat) → Nat
  | [] => 0
  | (_, c) :: rest => c + occSum rest

theorem tally_bump (k k' : Key) :
    ∀ m : List (Key × Nat),
      tally k (bump k' m) = tally k m + (if k = k' then 1 else 0) := by
  intro m
  induction m with
  | nil =>
    by_cases h : k = k' <;> simp [bump, tally, h]
  | cons p rest ih =>
    obtain ⟨k₀, c⟩ := p
    by_cases h1 : keyLtb k' k₀
    · by_cases h2 : k = k' <;> simp [bump, tally, h1, h2] <;> omega
    · by_cases h2 : k' = k₀
      · subst h2
        by_cases h3 : k = k' <;> simp [bump, tally, h1, h3] <;> omega
      · by_cases h3 : k = k₀
        · subst h3
          have hkk : ¬ k = k' := fun he => h2 he.symm
          simp only [bump, if_neg h1, if_neg h2, tally, eq_self_iff_true, if_true,
            ih, if_neg hkk]
          omega
        · simp only [bump, if_neg h1, if_neg h2, tally, if_neg h3, ih]

theorem cnt_cons (k r : Key) (rs : List Record) :
    cnt k (r :: rs) = cnt k rs + (if k = r then 1 else 0) := by
  simp only [cnt, List.countP_cons]
  by_cases h : r = k
  · subst h
    simp
  · have h2 : ¬ k = r := fun he => h he.symm
    simp [h, h2]

theorem tally_foldl (k : Key) :
    ∀ (rs : List Record) (m : List (Key × Nat)),
      tally k (rs.foldl (fun acc r => bump r acc) m) = tally k m + cnt k rs := by
  intro rs
  induction rs with
  | nil => intro m; simp [cnt]
  | cons r rest ih =>
    intro m
    rw [List.foldl_cons, ih (bump r m), tally_bump k r m, cnt_cons]
    omega

theorem tally_aggregate (k : Key) (rs : List Record) :
    tally k (aggregate rs) = cnt k rs := by
  simpa [tally] using tally_foldl k rs []

theorem mem_keys_bump {k' k : Key} :
    ∀ {m : List (Key × Nat)}, k' ∈ (bump k m).map Prod.fst →
      k' = k ∨ k' ∈ m.map Prod.fst := by
  intro m
  induction m with
  | nil =>
    intro h
    simp only [bump, List.map_cons, List.map_nil, List.mem_singleton] at h
    exact Or.inl h
  | cons p rest ih =>
    obtain ⟨k₀, c⟩ := p
    intro hmem
    by_cases h1 : keyLtb k k₀
    · rw [bump, if_pos h1] at hmem
      simp only [List.map_cons, List.mem_cons] at hmem ⊢
      tauto
    · by_cases h2 : k = k₀
      · rw [bump, if_neg h1, if_pos h2] at hmem
        simp only [List.map_cons, List.mem_cons] at hmem ⊢
        tauto
      · rw [bump, if_neg h1, if_neg h2] at hmem
        simp only [List.map_cons, List.mem_cons] at hmem ⊢
        rcases hmem with h | h
        · tauto
        · rcases ih h with h | h <;> tauto

theorem pairwise_bump {k : Key} :
    ∀ {m : List (Key × Nat)}, List.Pairwise keyLt (m.map Prod.fst) →
      List.Pairwise keyLt ((bump k m).map Prod.fst) := by
  intro m
  induction m with
  | nil =>
    intro _
    simp [bump]
  | cons p rest ih =>
    obtain ⟨k₀, c⟩ := p
    intro hp
    simp only [List.map_cons, List.pairwise_cons] at hp
    obtain ⟨hhead, htail⟩ := hp
    by_cases h1 : keyLtb k k₀
    · rw [bump, if_pos h1]
      simp only [List.map_cons, List.pairwise_cons]
      refine ⟨?_, hhead, htail⟩
      intro k' hk'
      rcases List.mem_cons.mp hk' with he | hk2
      · subst he
        exact h1
      · exact keyLt_trans (show keyLt k k₀ from h1) (hhead k' hk2)
    · by_cases h2 : k = k₀
      · rw [bump, if_neg h1, if_pos h2]
        simp only [List.map_cons, List.pairwise_cons]
        exact ⟨hhead, htail⟩
      · rw [bump, if_neg h1, if_neg h2]
        simp only [List.map_cons, List.pairwise_cons]
        refine ⟨?_, ih htail⟩
        intro k' hk'
        rcases mem_keys_bump hk' with he | hmem
        · subst he
          rcases keyLt_conn h2 with h | h
          · exact absurd h h1
          · exact h
        · exact hhead k' hmem

theorem pos_bump {k : Key} :
    ∀ {m : List (Key × Nat)}, (∀ p ∈ m, 1 ≤ p.2) →
      ∀ p ∈ bump k m, 1 ≤ p.2 := by
  intro m
  induction m with
  | nil =>
    intro _ p hmem
    simp only [bump, List.mem_singleton] at hmem
    simp [hmem]
  | cons q rest ih =>
    obtain ⟨k₀, c⟩ := q
    intro hp
    have hq : (1 : Nat) ≤ c := hp (k₀, c) (List.mem_cons_self _ _)
    have hrest : ∀ p ∈ rest, 1 ≤ p.2 := fun p hm => hp p (List.mem_cons_of_mem _ hm)
    by_cases h1 : keyLtb k k₀
    · rw [bump, if_pos h1]
      intro p hmem
      rcases List.mem_cons.mp hmem with he | hmem2
      · simp [he]
      · rcases List.mem_cons.mp hmem2 with he | hmem3
        · rw [he]
          exact hq
        · exact hrest p hmem3
    · by_cases h2 : k = k₀
      · rw [bump, if_neg h1, if_pos h2]
        intro p hmem
        rcases List.mem_cons.mp hmem with he | hmem2
        · simp [he]
        · exact hrest p hmem2
      · rw [bump, if_neg h1, if_neg h2]
        intro p hmem
        rcases List.mem_cons.mp hmem with he | hmem2
        · rw [he]
          exact hq
        · exact ih hrest p hmem2

theorem pairwise_foldl :
    ∀ (rs : List Record) (m : List (Key × Nat)),
      List.Pairwise keyLt (m.map Prod.fst) →
      List.Pairwise keyLt ((rs.foldl (fun acc r => bump r acc) m).map Prod.fst) := by
  intro rs
  induction rs with
  | nil => intro m h; simpa using h
  | cons r rest ih =>
    intro m h
    simpa using ih (bump r m) (pairwise_bump h)

theorem pos_foldl :
    ∀ (rs : List Record) (m : List (Key × Nat)),
      (∀ p ∈ m, 1 ≤ p.2) →
      ∀ p ∈ rs.foldl (fun acc r => bump r acc) m, 1 ≤ p.2 := by
  intro rs
  induction rs with
  | nil => intro m h; simpa using h
  | cons r rest ih =>
    intro m h
    simpa using ih (bump r m) (pos_bump h)

theorem pairwise_aggregate (rs : List Record) :
    List.Pairwise keyLt ((aggregate rs).map Prod.fst) :=
  pairwise_foldl rs [] (by simp)

theorem pos_aggregate (rs : List Record) :
    ∀ p ∈ aggregate rs, 1 ≤ p.2 :=
  pos_foldl rs [] (by simp)

theorem tally_eq_zero_of_not_mem {k : Key} :
    ∀ {m : List (Key × Nat)}, k ∉ m.map Prod.fst → tally k m = 0 := by
  intro m
  induction m with
  | nil => intro _; rfl
  | cons p rest ih =>
    obtain ⟨k₀, c⟩ := p
    intro h
    simp only [List.map_cons, List.mem_cons] at h
    push_neg at h
    obtain ⟨h1, h2⟩ := h
    simp [tally, h1, ih h2]

theorem head_not_mem_of_pairwise {k₀ : Key} {ks : List Key}
    (h : List.Pairwise keyLt (k₀ :: ks)) : k₀ ∉ ks := by
  intro hmem
  rw [List.pairwise_cons] at h
  exact keyLt_irrefl k₀ (h.1 k₀ hmem)

theorem tally_of_mem_sorted :
    ∀ {m : List (Key × Nat)}, List.Pairwise keyLt (m.map Prod.fst) →
      ∀ {p : Key × Nat}, p ∈ m → tally p.1 m = p.2 := by
  intro m
  induction m with
  | nil => intro _ p h; exact absurd h (List.not_mem_nil p)
  | cons q rest ih =>
    obtain ⟨k₀, c⟩ := q
    intro hs p hmem
    have hnm : k₀ ∉ rest.map Prod.fst := head_not_mem_of_pairwise (by simpa using hs)
    rcases List.mem_cons.mp hmem with he | hmem2
    · subst he
      simp [tally, tally_eq_zero_of_not_mem hnm]
    · have hne : ¬ p.1 = k₀ := by
        intro he
        exact hnm (he ▸ List.mem_map_of_mem Prod.fst hmem2)
      have htail : List.Pairwise keyLt (rest.map Prod.fst) := by
        simpa using (List.pairwise_cons.mp (by simpa using hs)).2
      simp [tally, hne, ih htail hmem2]

theorem tally_sorted_ext :
    ∀ (m₁ m₂ : List (Key × Nat)),
      List.Pairwise keyLt (m₁.map Prod.fst) → List.Pairwise keyLt (m₂.map Prod.fst) →
      (∀ p ∈ m₁, 1 ≤ p.2) → (∀ p ∈ m₂, 1 ≤ p.2) →
      (∀ k, tally k m₁ = tally k m₂) → m₁ = m₂ := by
  intro m₁
  induction m₁ with
  | nil =>
    intro m₂ _ _ _ hpos2 ht
    cases m₂ with
    | nil => rfl
    | cons p t =>
      obtain ⟨k₀, c⟩ := p
      have h := ht k₀
      have hc : 1 ≤ c := hpos2 (k₀, c) (List.mem_cons_self _ _)
      simp [tally] at h
      omega
  | cons p₁ t₁ ih =>
    intro m₂ hs1 hs2 hpos1 hpos2 ht
    obtain ⟨k₁, c₁⟩ := p₁
    have hnm1 : k₁ ∉ t₁.map Prod.fst := head_not_mem_of_pairwise (by simpa using hs1)
    cases m₂ with
    | nil =>
      have h := ht k₁
      have hc : 1 ≤ c₁ := hpos1 (k₁, c₁) (List.mem_cons_self _ _)
      simp [tally] at h
      omega
    | cons p₂ t₂ =>
      obtain ⟨k₂, c₂⟩ := p₂
      have hnm2 : k₂ ∉ t₂.map Prod.fst := head_not_mem_of_pairwise (by simpa using hs2)
      have hhead1 : ∀ k ∈ t₁.map Prod.fst, keyLt k₁ k :=
        (List.pairwise_cons.mp (by simpa using hs1)).1
      have hhead2 : ∀ k ∈ t₂.map Prod.fst, keyLt k₂ k :=
        (List.pairwise_cons.mp (by simpa using hs2)).1
      have htail1 : List.Pairwise keyLt (t₁.map Prod.fst) :=
        (List.pairwise_cons.mp (by simpa using hs1)).2
      have htail2 : List.Pairwise keyLt (t₂.map Prod.fst) :=
        (List.pairwise_cons.mp (by simpa using hs2)).2
      have hc1 : 1 ≤ c₁ := hpos1 (k₁, c₁) (List.mem_cons_self _ _)
      have hc2 : 1 ≤ c₂ := hpos2 (k₂, c₂) (List.mem_cons_self _ _)
      have hke : k₁ = k₂ := by
        by_contra hne
        rcases keyLt_conn hne with hlt | hlt
        · have hno : k₁ ∉ (k₂ :: t₂.map Prod.fst) := by
            intro hm
            rcases List.mem_cons.mp hm with he | hm2
            · exact hne he
            · exact keyLt_irrefl k₁ (keyLt_trans hlt (hhead2 k₁ hm2))
          have hz : tally k₁ ((k₂, c₂) :: t₂) = 0 := by
            have : k₁ ∉ ((k₂, c₂) :: t₂).map Prod.fst := by simpa using hno
            exact tally_eq_zero_of_not_mem this
          have h := ht k₁
          rw [hz] at h
          simp [tally] at h
          omega
        · have hno : k₂ ∉ (k₁ :: t₁.map Prod.fst) := by
            intro hm
            rcases List.mem_cons.mp hm with he | hm2
            · exact hne he.symm
            · exact keyLt_irrefl k₂ (keyLt_trans hlt (hhead1 k₂ hm2))
          have hz : tally k₂ ((k₁, c₁) :: t₁) = 0 := by
            have : k₂ ∉ ((k₁, c₁) :: t₁).map Prod.fst := by simpa using hno
            exact tally_eq_zero_of_not_mem this
          have h := ht k₂
          rw [hz] at h
          simp [tally] at h
          omega
      subst hke
      have hce : c₁ = c₂ := by
        have h := ht k₁
        simp [tally, tally_eq_zero_of_not_mem hnm1, tally_eq_zero_of_not_mem hnm2] at h
        exact h
      subst hce
      have htt : ∀ k, tally k t₁ = tally k t₂ := by
        intro k
        by_cases hk : k = k₁
        · subst hk
          rw [tally_eq_zero_of_not_mem hnm1, tally_eq_zero_of_not_mem hnm2]
        · have h := ht k
          simpa [tally, hk] using h
      rw [ih t₂ htail1 htail2
        (fun p hp => hpos1 p (List.mem_cons_of_mem _ hp))
        (fun p hp => hpos2 p (List.mem_cons_of_mem _ hp)) htt]

/-- Order-independence of the aggregation map: permuted inputs build the
identical sorted contents. -/
theorem aggregate_perm {rs rs' : List Record} (h : rs.Perm rs') :
    aggregate rs = aggregate rs' :=
  tally_sorted_ext _ _ (pairwise_aggregate rs) (pairwise_aggregate rs')
    (pos_aggregate rs) (pos_aggregate rs')
    (fun k => by rw [tally_aggregate, tally_aggregate]; exact h.countP_eq _)

theorem occSum_bump (k : Key) :
    ∀ m : List (Key × Nat), occSum (bump k m) = occSum m + 1 := by
  intro m
  induction m with
  | nil => simp [bump, occSum]
  | cons p rest ih =>
    obtain ⟨k₀, c⟩ := p
    by_cases h1 : keyLtb k k₀
    · rw [bump, if_pos h1]
      simp only [occSum]
      omega
    · by_cases h2 : k = k₀
      · rw [bump, if_neg h1, if_pos h2]
        simp only [occSum]
        omega
      · rw [bump, if_neg h1, if_neg h2]
        simp only [occSum, ih]
        omega

theorem occSum_foldl :
    ∀ (rs : List Record) (m : List (Key × Nat)),
      occSum (rs.foldl (fun acc r => bump r acc) m) = occSum m + rs.length := by
  intro rs
  induction rs with
  | nil => intro m; simp
  | cons r rest ih =>
    intro m
    rw [List.foldl_cons, ih (bump r m), occSum_bump]
    simp only [List.length_cons]
    omega

/-- The occurrence counters of the aggregation map sum to the total number
of input records (every record is counted before any parsing happens). -/
theorem occSum_aggregate (rs : List Record) : occSum (aggregate rs) = rs.length := by
  simpa [occSum] using occSum_foldl rs []

theorem aggregate_nil_iff (rs : List Record) : aggregate rs = [] ↔ rs = [] := by
  constructor
  · intro h
    cases rs with
    | nil => rfl
    | cons r rest =>
      have h1 : tally r (aggregate (r :: rest)) = cnt r (r :: rest) :=
        tally_aggregate _ _
      rw [h, cnt_cons] at h1
      simp [tally] at h1
  · intro h
    subst h
    rfl

theorem count_of_mem_aggregate {rs : List Record} {p : Key × Nat}
    (h : p ∈ aggregate rs) : p.2 = cnt p.1 rs := by
  rw [← tally_aggregate, tally_of_mem_sorted (pairwise_aggregate rs) h]

theorem mem_of_mem_aggregate {rs : List Record} {p : Key × Nat}
    (h : p ∈ aggregate rs) : p.1 ∈ rs := by
  have h1 : 1 ≤ p.2 := pos_aggregate rs p h
  have h2 : 0 < cnt p.1 rs := by
    rw [← count_of_mem_aggregate h]
    omega
  rcases List.countP_pos_iff.mp h2 with ⟨a, ha, hp⟩
  exact (of_decide_eq_true hp) ▸ ha

/-! ## Coordinate parsing

`createGraphics` converts each key with `std::stod` (lines 89-90), which
throws `std::invalid_argument` when no initial numeric conversion is
possible; the exception is not caught anywhere in the source, so it aborts
the pass.  `stodOk` models whether `std::stod` succeeds: after optional
leading whitespace and an optional sign, the string must start with a
digit, or with a decimal point followed by a digit.  (The hexadecimal,
infinity and NaN spellings `strtod` also accepts are irrelevant to
decimal-degree coordinate strings and are not modelled.) -/

/-- Whitespace skipped by `std::stod` (C `isspace`). -/
def isSpaceChar (c : Char) : Bool :=
  c = ' ' || c = '\t' || c = '\n' || c = '\x0b' || c = '\x0c' || c = '\r'

/-- Drop one optional leading sign character. -/
def dropSign : Str → Str
  | [] => []
  | c :: rest => if c = '+' || c = '-' then rest else c :: rest

/-- Does `std::stod` succeed on this string (no exception thrown)? -/
def stodOk (s : Str) : Bool :=
  match dropSign (s.dropWhile isSpaceChar) with
  | [] => false
  | c :: rest =>
    c.isDigit ||
      (c = '.' && (match rest with
        | [] => false
        | d :: _ => d.isDigit))

/-- Both coordinate strings of a key parse under `std::stod`. -/
def keyParses (k : Key) : Bool :=
  stodOk k.1 && stodOk k.2

/-! ## Controller state and operations

The mutable members of `Map_display` used by the claims: the running
result counter `results`, the marker point list `activePoints`, and the
navigation index `currIndex`.  `activePoints` stores the points in
emission order; each emitted graphic carries `property("id", index)` with
`index` equal to the point's position in `activePoints`, so we record the
keys themselves (the double values obtained by `std::stod` are a function
of the key and play no role in any claim). -/

structure MapState where
  results : Int
  activePoints : List Key
  currIndex : Int
deriving DecidableEq

/-- Result of one `createGraphics` pass: the updated controller state, the
emitted (point, occurrences) pairs in emission order, and whether the pass
ran to completion (`false` = `std::stod` threw mid-loop, leaving
`activePoints` holding the points emitted so far). -/
structure PassOutcome where
  state : MapState
  emitted : List (Key × Nat)
  completed : Bool
deriving DecidableEq

/-- The emission loop of `createGraphics` (lines 88-125): for each map
entry in ascending key order, parse both coordinates with `std::stod`
(throwing ends the loop) and emit a graphic for the point, with its
occurrence count shown when greater than 1. -/
def emitLoop : List (Key × Nat) → List (Key × Nat) × Bool
  | [] => ([], true)
  | (k, c) :: rest =>
    if keyParses k then
      ((k, c) :: (emitLoop rest).1, (emitLoop rest).2)
    else ([], false)

/-- `Map_display::createGraphics` (lines 72-128): add the fetched record
count to `results`, build the occurrence map, return early when it is
empty (note: *without* clearing `activePoints`), otherwise clear
`activePoints` and emit every aggregated point in map order. -/
def createGraphics (s : MapState) (eventarr : List Record) : PassOutcome :=
  let s1 : MapState := { s with results := s.results + eventarr.length }
  let points := aggregate eventarr
  if points = [] then { state := s1, emitted := [], completed := true }
  else
    let e := emitLoop points
    { state := { s1 with activePoints := e.1.map Prod.fst },
      emitted := e.1,
      completed := e.2 }

/-- Result of `Map_display::searchHandler`: the updated state, whether the
handler ran to completion, and the point passed to `transition_coords`
(the unchecked `activePoints[0]` access of line 182; `none` means the
vector was empty and the access had no defined value). -/
structure SearchOutcome where
  state : MapState
  completed : Bool
  focus : Option Key
deriving DecidableEq

/-- `Map_display::searchHandler` (lines 163-185): reset `results` when
`page > 0`, fetch the page's records, rebuild the overlay via
`createGraphics`, and focus `activePoints[0]`.  The fetched records are a
parameter (the HTTP layer is outside the core). -/
def searchHandler (s : MapState) (records : List Record) (page : Int) : SearchOutcome :=
  let s1 := if page > 0 then { s with results := 0 } else s
  let pass := createGraphics s1 records
  if pass.completed then
    { state := pass.state,
      completed := true,
      focus := if 0 ≤ (0 : Int) then pass.state.activePoints.get? 0 else none }
  else
    { state := pass.state, completed := false, focus := none }

/-- The index update of `Map_display::switchViews` (lines 201-206) on the
current index `i` for a point list of length `n` (as `int` values):
`index += next ? 1 : -1; len = n - 1; index = index > len ? 0 : index < 0 ?
len : index`. -/
def stepIndex (n : Int) (i : Int) (next : Bool) : Int :=
  let index0 := i + (if next then 1 else -1)
  let len := n - 1
  if index0 > len then 0 else if index0 < 0 then len else index0

/-- `Map_display::switchViews` (lines 199-212): step the cyclic index and
pan to `activePoints[index]` — an unchecked vector access, returned as the
second component (`none` = out of range, undefined behavior in C++). -/
def switchViews (s : MapState) (next : Bool) : MapState × Option Key :=
  let index := stepIndex (s.activePoints.length : Int) s.currIndex next
  let accessed := if 0 ≤ index then s.activePoints.get? index.toNat else none
  ({ s with currIndex := index }, accessed)

/-- The state after a `switchViews(next := true)` step. -/
def stepNextState (s : MapState) : MapState :=
  (switchViews s true).1

/-- The identify-completed callback of `connectSignals` (line 230):
`transition_coords(activePoints[graphic->property("id").toInt()])`.  The
vector access is unchecked; `none` marks an id with no defined value. -/
def resolveClick (s : MapState) (mid : Int) : Option Key :=
  if 0 ≤ mid then s.activePoints.get? mid.toNat else none

/-- Modelled from the spec: `EventSource.fetch` (§6, "offset/limit API")
is not part of the repository source (`request.h` / `get_events` live
outside `src/`).  We model only the record count it returns: a backing
result sequence of `total` records, of which the window starting at
`offset` of size `limit` is returned. -/
def fetchCount (total : Nat) (limit : Nat) (offset : Int) : Nat :=
  if offset < 0 then 0 else min limit (total - offset.toNat)

/-- Result of `Map_display::checkPage`: the returned page index (−1 is the
no-such-page sentinel) and the (limit, offset) parameters of each probe
fetch issued against the event source. -/
structure PageProbe where
  page : Int
  probes : List (Nat × Int)
deriving DecidableEq

/-- `Map_display::checkPage` (lines 237-256): `page = results/20 - 1`; for
`next`, probe only when `results % 20 == 0`, passing limit `"1"` and
offset `to_string(page+1)` to `get_events`, and report `page+1` iff the
probe returns at least one record; for previous, return `page-1` iff
`page > 0`.  (`results` is non-negative in every reachable state, where
C++ truncated division and Lean `Int` division agree.) -/
def checkPage (results : Int) (total : Nat) (next : Bool) : PageProbe :=
  let page := results / 20 - 1
  if next then
    if results % 20 == 0 then
      let got := fetchCount total 1 (page + 1)
      if got ≥ 1 then { page := page + 1, probes := [(1, page + 1)] }
      else { page := -1, probes := [(1, page + 1)] }
    else { page := -1, probes := [] }
  else
    if page > 0 then { page := page - 1, probes := [] }
    else { page := -1, probes := [] }

theorem emitLoop_all : ∀ {m : List (Key × Nat)},
    (∀ p ∈ m, keyParses p.1 = true) → emitLoop m = (m, true) := by
  intro m
  induction m with
  | nil => intro _; rfl
  | cons p rest ih =>
    intro h
    obtain ⟨k, c⟩ := p
    have hk : keyParses k = true := h (k, c) (List.mem_cons_self _ _)
    have hr := ih (fun q hq => h q (List.mem_cons_of_mem _ hq))
    simp [emitLoop, hk, hr]

theorem emitLoop_mem : ∀ {m : List (Key × Nat)} {p : Key × Nat},
    p ∈ (emitLoop m).1 → p ∈ m := by
  intro m
  induction m with
  | nil => intro p h; exact absurd h (List.not_mem_nil p)
  | cons q rest ih =>
    obtain ⟨k, c⟩ := q
    intro p h
    by_cases hk : keyParses k
    · rw [emitLoop, if_pos hk] at h
      rcases List.mem_cons.mp h with he | h2
      · exact he ▸ List.mem_cons_self _ _
      · exact List.mem_cons_of_mem _ (ih h2)
    · rw [emitLoop, if_neg hk] at h
      exact absurd h (List.not_mem_nil p)

theorem emitLoop_pairwise : ∀ {m : List (Key × Nat)},
    List.Pairwise keyLt (m.map Prod.fst) →
    List.Pairwise keyLt ((emitLoop m).1.map Prod.fst) := by
  intro m
  induction m with
  | nil => intro _; simp [emitLoop]
  | cons q rest ih =>
    obtain ⟨k, c⟩ := q
    intro hs
    simp only [List.map_cons, List.pairwise_cons] at hs
    obtain ⟨hhead, htail⟩ := hs
    by_cases hk : keyParses k
    · rw [emitLoop, if_pos hk]
      simp only [List.map_cons, List.pairwise_cons]
      refine ⟨?_, ih htail⟩
      intro k' hk'
      rcases List.mem_map.mp hk' with ⟨p, hp, he⟩
      exact he ▸ hhead p.1 (List.mem_map_of_mem Prod.fst (emitLoop_mem hp))
    · rw [emitLoop, if_neg hk]
      simp

theorem stepIndex_next {n i : Int} (h0 : 0 ≤ i) (h1 : i < n) :
    stepIndex n i true = (i + 1) % n := by
  show (if i + 1 > n - 1 then 0 else if i + 1 < 0 then n - 1 else i + 1) = (i + 1) % n
  split_ifs with hc hd
  · have he : i + 1 = n := by omega
    rw [he, Int.emod_self]
  · exact absurd hd (by omega)
  · exact (Int.emod_eq_of_lt (by omega) (by omega)).symm

theorem stepIndex_prev {n i : Int} (h0 : 0 ≤ i) (h1 : i < n) :
    stepIndex n i false = (i - 1 + n) % n := by
  show (if i + -1 > n - 1 then 0 else if i + -1 < 0 then n - 1 else i + -1) =
    (i - 1 + n) % n
  split_ifs with hc hd
  · exact absurd hc (by omega)
  · have he : i = 0 := by omega
    subst he
    have h2 : (0 : Int) - 1 + n = n - 1 := by ring
    rw [h2, Int.emod_eq_of_lt (by omega) (by omega)]
  · rw [Int.add_emod_self, Int.emod_eq_of_lt (by omega) (by omega)]
    omega

theorem switchViews_fst (s : MapState) (b : Bool) :
    (switchViews s b).1 =
      { s with currIndex := stepIndex (s.activePoints.length : Int) s.currIndex b } :=
  rfl

theorem stepNext_iterate (s : MapState) (h0 : 0 ≤ s.currIndex)
    (h1 : s.currIndex < (s.activePoints.length : Int)) :
    ∀ k : Nat, (stepNextState^[k] s).activePoints = s.activePoints ∧
      (stepNextState^[k] s).currIndex =
        (s.currIndex + k) % (s.activePoints.length : Int) := by
  intro k
  induction k with
  | zero =>
    refine ⟨rfl, ?_⟩
    simpa using (Int.emod_eq_of_lt h0 h1).symm
  | succ k ih =>
    obtain ⟨ihp, ihc⟩ := ih
    have hn : (0 : Int) < (s.activePoints.length : Int) := by omega
    have hb0 : 0 ≤ (stepNextState^[k] s).currIndex := by
      rw [ihc]
      exact Int.emod_nonneg _ (by omega)
    have hb1 : (stepNextState^[k] s).currIndex < (s.activePoints.length : Int) := by
      rw [ihc]
      exact Int.emod_lt_of_pos _ hn
    rw [Function.iterate_succ_apply']
    constructor
    · show (stepNextState^[k] s).activePoints = s.activePoints
      exact ihp
    · have he : (stepNextState (stepNextState^[k] s)).currIndex =
          stepIndex ((stepNextState^[k] s).activePoints.length : Int)
            (stepNextState^[k] s).currIndex true := rfl
      rw [he, ihp, stepIndex_next hb0 hb1, ihc, Int.emod_add_emod]
      congr 1
      push_cast
      ring

/-! ## Claim theorems -/

/-- C1, first part (holds unconditionally): every emitted AggregatedPoint's
occurrence count equals the number of input records whose raw lat and lng
strings are identical to that point's key.  Second part (holds only when
every record parses): the occurrence counts over all emitted points sum to
the number of records with parsable coordinates.  The parsability
hypothesis is forced: on malformed input `std::stod` throws and the pass
aborts mid-emission (see `claim1_counterexample`). -/
theorem claim1_occurrence_counts (s : MapState) (rs : List Record) :
    (∀ p ∈ (createGraphics s rs).emitted, p.2 = cnt p.1 rs) ∧
    ((∀ r ∈ rs, keyParses r = true) →
      occSum (createGraphics s rs).emitted = rs.countP keyParses) := by
  constructor
  · intro p hp
    have hmem : p ∈ aggregate rs := by
      by_cases hn : aggregate rs = []
      · simp [createGraphics, hn] at hp
      · simp only [createGraphics, if_neg hn] at hp
        exact emitLoop_mem hp
    exact count_of_mem_aggregate hmem
  · intro h
    have hparse : ∀ p ∈ aggregate rs, keyParses p.1 = true :=
      fun p hp => h p.1 (mem_of_mem_aggregate hp)
    by_cases hn : aggregate rs = []
    · have hrs : rs = [] := (aggregate_nil_iff rs).mp hn
      subst hrs
      simp [createGraphics, occSum]
    · simp only [createGraphics, if_neg hn, emitLoop_all hparse]
      rw [occSum_aggregate]
      exact (List.countP_eq_length.mpr h).symm

/-- C1 counterexample: with records `("!x", "1.0")` and `("2.0", "3.0")`,
the map iterates `("!x", "1.0")` first (`'!' < '2'` byte-wise), so
`std::stod` throws before anything is emitted: the occurrence counts over
all emitted points sum to 0, yet one record has parsable coordinates. -/
theorem claim1_counterexample :
    occSum (createGraphics ⟨0, [], 0⟩ [record "!x" "1.0", record "2.0" "3.0"]).emitted = 0 ∧
    ([record "!x" "1.0", record "2.0" "3.0"] : List Record).countP keyParses = 1 := by
  decide

/-- C1 witness: a concrete all-parsable input, discharging the parsability
hypothesis of `claim1_occurrence_counts`. -/
theorem claim1_witness :
    (∀ r ∈ ([record "10.0" "20.0", record "30.0" "40.0", record "10.0" "20.0"] :
        List Record), keyParses r = true) ∧
    occSum (createGraphics ⟨0, [], 0⟩
        [record "10.0" "20.0", record "30.0" "40.0", record "10.0" "20.0"]).emitted =
      ([record "10.0" "20.0", record "30.0" "40.0", record "10.0" "20.0"] :
        List Record).countP keyParses :=
  ⟨by decide, (claim1_occurrence_counts ⟨0, [], 0⟩ _).2 (by decide)⟩

/-- C2: aggregation is order-independent — permuting the input records
yields an identical pass outcome (same state, same emitted points, same
counts, same order) — and the emitted order is ascending in the
`(lat-string, lng-string)` pair order, not input arrival order. -/
theorem claim2_order_independent_sorted (s : MapState) (rs rs' : List Record)
    (h : rs.Perm rs') :
    createGraphics s rs = createGraphics s rs' ∧
    List.Pairwise keyLt ((createGraphics s rs).emitted.map Prod.fst) := by
  constructor
  · unfold createGraphics
    rw [aggregate_perm h, h.length_eq]
  · by_cases hn : aggregate rs = []
    · simp [createGraphics, hn]
    · simp only [createGraphics, if_neg hn]
      exact emitLoop_pairwise (pairwise_aggregate rs)

/-- C2 witness: the spec's own scenario multiset in two arrival orders. -/
theorem claim2_witness :
    ([record "30.0" "40.0", record "10.0" "20.0", record "10.0" "20.0"] :
        List Record).Perm
      [record "10.0" "20.0", record "10.0" "20.0", record "30.0" "40.0"] ∧
    (createGraphics ⟨0, [], 0⟩
        [record "30.0" "40.0", record "10.0" "20.0", record "10.0" "20.0"] =
      createGraphics ⟨0, [], 0⟩
        [record "10.0" "20.0", record "10.0" "20.0", record "30.0" "40.0"] ∧
    List.Pairwise keyLt ((createGraphics ⟨0, [], 0⟩
        [record "30.0" "40.0", record "10.0" "20.0", record "10.0" "20.0"]).emitted.map
          Prod.fst)) :=
  ⟨by decide, claim2_order_independent_sorted ⟨0, [], 0⟩ _ _ (by decide)⟩

/-- C3 is violated by the source: `searchHandler` resets `results` when
`page > 0` (line 166), the exact inverse of the claim.  Starting from
`results = 20`, a fresh search (`page == 0`) returning one record leaves
`results = 21` (the claim requires 1), while a `page == 1` fetch of the
same query resets to 1 (the claim requires accumulation to 21). -/
theorem claim3_reset_condition_inverted :
    (searchHandler ⟨20, [], 0⟩ [record "10.0" "20.0"] 0).state.results = 21 ∧
    (searchHandler ⟨20, [], 0⟩ [record "10.0" "20.0"] 1).state.results = 1 := by
  decide

/-- C4 is violated by the source: the probe in `checkPage` passes
`to_string(page+1)` as the offset argument (line 242), not the record
offset `(page+1)*20` the claim (and `searchHandler`'s own `offset = page *
20`, line 165) requires.  With 20 backing records and `results = 20`
(page 0 exactly full), the code probes offset 1 — which holds a record —
and reports that page 1 exists, although a probe at the correct offset 20
returns 0 records. -/
theorem claim4_probe_offset_wrong :
    (checkPage 20 20 true).page = 1 ∧
    (checkPage 20 20 true).probes = [(1, 1)] ∧
    fetchCount 20 1 20 = 0 := by
  decide

/-- C5 is violated by the source: `std::stod` (lines 89-90) throws on a
malformed coordinate and nothing catches it, so the pass aborts instead of
dropping the record; no drop counter exists.  With `("abc", "1.0")` the
pass does not complete; with `("!y", "1.0")` plus a parsable record
`("3.0", "4.0")` the abort happens before the parsable record's point is
emitted, so the remaining parsable data is lost rather than aggregated. -/
theorem claim5_malformed_aborts_pass :
    (createGraphics ⟨0, [], 0⟩ [record "abc" "1.0"]).completed = false ∧
    (createGraphics ⟨0, [], 0⟩ [record "!y" "1.0", record "3.0" "4.0"]).completed = false ∧
    (createGraphics ⟨0, [], 0⟩ [record "!y" "1.0", record "3.0" "4.0"]).emitted = [] := by
  decide

/-- First aggregation pass for the C6 scenario: three distinct points. -/
def passOne : PassOutcome :=
  createGraphics ⟨0, [], 0⟩ [record "1.0" "1.0", record "2.0" "2.0", record "3.0" "3.0"]

/-- Second aggregation pass for the C6 scenario: one point, superseding
`passOne` (ids 1 and 2 of the first pass become stale). -/
def passTwo : PassOutcome :=
  createGraphics passOne.state [record "5.0" "5.0"]

/-- C6 is violated by the source: the identify callback indexes
`activePoints[id]` without any bounds check (line 230).  Id 2, valid in
the first pass (it resolves to the point at position 2), has no defined
value after the second pass replaces the list with a single point — in
C++ this is an out-of-range `std::vector::operator[]`, i.e. undefined
behavior, not a silently-ignored `NotFound`. -/
theorem claim6_stale_id_unchecked :
    resolveClick passTwo.state 2 = none ∧
    resolveClick passOne.state 2 = some (record "3.0" "3.0") ∧
    passTwo.state.activePoints.length = 1 := by
  decide

/-- C7: for a point list of length N ≥ 1 and a current index in [0, N),
`switchViews` wraps next from N−1 to 0 and previous from 0 to N−1,
stepping next N times returns to the start index, and next followed by
previous is the identity on the index. -/
theorem claim7_navigation_cyclic (s : MapState)
    (hN : 1 ≤ s.activePoints.length)
    (h0 : 0 ≤ s.currIndex) (h1 : s.currIndex < (s.activePoints.length : Int)) :
    (s.currIndex = (s.activePoints.length : Int) - 1 →
      (switchViews s true).1.currIndex = 0) ∧
    (s.currIndex = 0 →
      (switchViews s false).1.currIndex = (s.activePoints.length : Int) - 1) ∧
    (stepNextState^[s.activePoints.length] s).currIndex = s.currIndex ∧
    (switchViews (switchViews s true).1 false).1.currIndex = s.currIndex := by
  have hn : (0 : Int) < (s.activePoints.length : Int) := by
    exact_mod_cast hN
  refine ⟨?_, ?_, ?_, ?_⟩
  · intro hlast
    rw [switchViews_fst]
    show stepIndex (s.activePoints.length : Int) s.currIndex true = 0
    rw [stepIndex_next h0 h1]
    have he : s.currIndex + 1 = (s.activePoints.length : Int) := by omega
    rw [he, Int.emod_self]
  · intro hzero
    rw [switchViews_fst]
    show stepIndex (s.activePoints.length : Int) s.currIndex false =
      (s.activePoints.length : Int) - 1
    rw [stepIndex_prev h0 h1, hzero]
    have h2 : (0 : Int) - 1 + (s.activePoints.length : Int) =
        (s.activePoints.length : Int) - 1 := by ring
    rw [h2, Int.emod_eq_of_lt (by omega) (by omega)]
  · obtain ⟨_, hc⟩ := stepNext_iterate s h0 h1 s.activePoints.length
    rw [hc, Int.add_emod_self, Int.emod_eq_of_lt h0 h1]
  · have hpts : (switchViews s true).1.activePoints = s.activePoints := rfl
    have hcur : (switchViews s true).1.currIndex =
        (s.currIndex + 1) % (s.activePoints.length : Int) := by
      rw [switchViews_fst]
      exact stepIndex_next h0 h1
    have hb0 : 0 ≤ (switchViews s true).1.currIndex := by
      rw [hcur]
      exact Int.emod_nonneg _ (by omega)
    have hb1 : (switchViews s true).1.currIndex < (s.activePoints.length : Int) := by
      rw [hcur]
      exact Int.emod_lt_of_pos _ hn
    rw [switchViews_fst ((switchViews s true).1)]
    show stepIndex ((switchViews s true).1.activePoints.length : Int)
      (switchViews s true).1.currIndex false = s.currIndex
    rw [hpts, stepIndex_prev hb0 hb1, hcur]
    have h2 : (s.currIndex + 1) % (s.activePoints.length : Int) - 1 +
        (s.activePoints.length : Int) =
        (s.currIndex + 1) % (s.activePoints.length : Int) +
          ((s.activePoints.length : Int) - 1) := by ring
    rw [h2, Int.emod_add_emod]
    have h3 : s.currIndex + 1 + ((s.activePoints.length : Int) - 1) =
        s.currIndex + (s.activePoints.length : Int) := by ring
    rw [h3, Int.add_emod_self, Int.emod_eq_of_lt h0 h1]

/-- Concrete two-point state for the C7 witness. -/
def navState : MapState := ⟨0, [record "1.0" "1.0", record "2.0" "2.0"], 1⟩

/-- C7 witness: the cyclic laws instantiated on a two-point list with the
cursor at the last index. -/
theorem claim7_witness :
    1 ≤ navState.activePoints.length ∧
    0 ≤ navState.currIndex ∧
    navState.currIndex < (navState.activePoints.length : Int) ∧
    ((navState.currIndex = (navState.activePoints.length : Int) - 1 →
        (switchViews navState true).1.currIndex = 0) ∧
      (navState.currIndex = 0 →
        (switchViews navState false).1.currIndex =
          (navState.activePoints.length : Int) - 1) ∧
      (stepNextState^[navState.activePoints.length] navState).currIndex =
        navState.currIndex ∧
      (switchViews (switchViews navState true).1 false).1.currIndex =
        navState.currIndex) :=
  ⟨by decide, by decide, by decide,
    claim7_navigation_cyclic navState (by decide) (by decide) (by decide)⟩

/-- C8 is violated by the source: with an empty point list, `switchViews`
is not a no-op.  For `next` it computes index 0 and passes
`activePoints[0]` to `transition_coords` — an out-of-range access on an
empty vector (undefined behavior in C++, `none` in the model); for
`previous` it sets the cursor to −1 and accesses `activePoints[-1]`. -/
theorem claim8_empty_list_not_noop :
    (switchViews ⟨0, [], 0⟩ true).2 = none ∧
    (switchViews ⟨0, [], 0⟩ true).1.currIndex = 0 ∧
    (switchViews ⟨0, [], 0⟩ false).2 = none ∧
    (switchViews ⟨0, [], 0⟩ false).1.currIndex = -1 := by
  decide

/-- Controller state before the C9 search: three points, cursor at 2. -/
def preSearchState : MapState :=
  ⟨0, [record "1.0" "1.0", record "2.0" "2.0", record "3.0" "3.0"], 2⟩

/-- C9 is violated by the source: `searchHandler` never touches
`currIndex`.  After a fresh search replaces a three-point list (cursor at
2) by a one-point list, the point at index 0 of the new list is focused
(line 182), but the cursor still reads 2 — not reset to 0, and now out of
range of the new list. -/
theorem claim9_cursor_not_reset :
    (searchHandler preSearchState [record "9.0" "9.0"] 0).state.currIndex = 2 ∧
    (searchHandler preSearchState [record "9.0" "9.0"] 0).state.activePoints =
      [record "9.0" "9.0"] ∧
    (searchHandler preSearchState [record "9.0" "9.0"] 0).focus =
      some (record "9.0" "9.0") := by
  decide

/-- Controller state before the C10 search: one stale point. -/
def staleState : MapState := ⟨20, [record "1.0" "1.0"], 0⟩

/-- C10 is violated by the source: `createGraphics` returns early on empty
input (line 85) *before* `activePoints.clear()` (line 86), so a search
returning no records keeps the previous pass's points in full, and
`searchHandler` still runs the downstream focus step, panning to the stale
point `activePoints[0]` instead of skipping it. -/
theorem claim10_empty_input_keeps_stale_points :
    (searchHandler staleState [] 0).state.activePoints = [record "1.0" "1.0"] ∧
    (searchHandler staleState [] 0).focus = some (record "1.0" "1.0") := by
  decide
